import Mathlib

/-!
Verification of the Entire CLI checkpoint engine against its specification.

Go strings are modelled either as Lean `String` (for functions that treat
their input as a sequence of characters) or as `List Nat` of UTF-8 bytes
(for functions such as `cleanPromptForCommit` that index and slice the
underlying byte representation).  Go slices that may be `nil` are modelled
as `Option (List α)`, with `none` playing the role of a nil slice and
`goAppend` playing the role of the built-in `append`.
-/

namespace EntireCLI

/-- Go `append(s, x)` on a possibly-nil slice: appending to a nil slice
allocates a fresh one-element slice. -/
def goAppend {α : Type} (s : Option (List α)) (x : α) : Option (List α) :=
  match s with
  | none => some [x]
  | some l => some (l ++ [x])

/-! ## C1: shadow branch predicate (strategy package, `IsShadowBranch`) -/

/-- One character of the class `[0-9a-fA-F]` of `shadowBranchPattern`. -/
def isHexChar (c : Char) : Bool :=
  (decide ('0' ≤ c) && decide (c ≤ '9')) ||
  (decide ('a' ≤ c) && decide (c ≤ 'f')) ||
  (decide ('A' ≤ c) && decide (c ≤ 'F'))

/-- `shadowBranchPattern.MatchString`: the branch name matches the anchored
regular expression `^entire/[0-9a-fA-F]\x7b7,\x7d$`. -/
def shadowPatternMatch (s : String) : Bool :=
  ("entire/".data).isPrefixOf s.data &&
    (let t := s.data.drop 7
     decide (7 ≤ t.length) && t.all isHexChar)

/-- `strategy.IsShadowBranch`: explicitly excludes `entire/sessions`,
otherwise delegates to the pattern match. -/
def IsShadowBranch (branchName : String) : Bool :=
  if branchName = "entire/sessions" then false
  else shadowPatternMatch branchName

/-- The specification's wording of the shadow-branch predicate: the name is
`entire/` followed by at least seven hex characters, and is not the literal
`entire/sessions`. -/
def shadowSpec (s : String) : Prop :=
  (∃ t : List Char, s.data = "entire/".data ++ t ∧ 7 ≤ t.length ∧
      ∀ c ∈ t, isHexChar c = true) ∧ s ≠ "entire/sessions"

theorem isPrefixOf_iff_exists {α : Type} [DecidableEq α] :
    ∀ (p l : List α), p.isPrefixOf l = true ↔ ∃ t, l = p ++ t := by
  intro p
  induction p with
  | nil =>
    intro l
    simp [List.isPrefixOf]
  | cons a as ih =>
    intro l
    cases l with
    | nil => simp [List.isPrefixOf]
    | cons b bs =>
      simp only [List.isPrefixOf, Bool.and_eq_true, beq_iff_eq, ih,
        List.cons_append, List.cons.injEq]
      constructor
      · rintro ⟨rfl, t, rfl⟩
        exact ⟨t, rfl, rfl⟩
      · rintro ⟨t, rfl, rfl⟩
        exact ⟨rfl, t, rfl⟩

theorem shadowPatternMatch_iff (s : String) :
    shadowPatternMatch s = true ↔
      ∃ t : List Char, s.data = "entire/".data ++ t ∧ 7 ≤ t.length ∧
        ∀ c ∈ t, isHexChar c = true := by
  have hlen7 : ("entire/".data).length = 7 := by decide
  have hdrop : ∀ t : List Char, ("entire/".data ++ t).drop 7 = t := by
    intro t
    rw [← hlen7]
    exact List.drop_left _ _
  unfold shadowPatternMatch
  simp only [Bool.and_eq_true, decide_eq_true_eq, List.all_eq_true]
  constructor
  · rintro ⟨hp, hlen, hall⟩
    rcases (isPrefixOf_iff_exists _ _).mp hp with ⟨t, ht⟩
    rw [ht, hdrop] at hlen hall
    exact ⟨t, ht, hlen, hall⟩
  · rintro ⟨t, ht, h7, hh⟩
    refine ⟨(isPrefixOf_iff_exists _ _).mpr ⟨t, ht⟩, ?_, ?_⟩
    · rw [ht, hdrop]; exact h7
    · rw [ht, hdrop]; exact hh

/-- C1: `IsShadowBranch s` holds iff `s` is `entire/` followed by at least
seven hex characters and `s` is not the literal `entire/sessions`; in
particular it rejects `entire/`, `entire`, `entire/sessions`, short or
non-hex suffixes, and accepts the test vectors. -/
theorem C1_isShadowBranch_correct :
    (∀ s : String, IsShadowBranch s = true ↔ shadowSpec s) ∧
    IsShadowBranch "entire/" = false ∧
    IsShadowBranch "entire" = false ∧
    IsShadowBranch "entire/sessions" = false ∧
    IsShadowBranch "entire/abc123" = false ∧
    IsShadowBranch "entire/a" = false ∧
    IsShadowBranch "entire/ghijklm" = false ∧
    IsShadowBranch "abc1234" = false ∧
    IsShadowBranch "feature/abc1234" = false ∧
    IsShadowBranch "main" = false ∧
    IsShadowBranch "" = false ∧
    IsShadowBranch "entire/abc1234" = true ∧
    IsShadowBranch "entire/1234567" = true ∧
    IsShadowBranch "entire/AbCdEf1" = true ∧
    IsShadowBranch "entire/abcdef0123456789abcdef0123456789abcdef01" = true := by
  refine ⟨?_, ?_⟩
  · intro s
    unfold IsShadowBranch shadowSpec
    by_cases hs : s = "entire/sessions"
    · simp [hs]
    · simp only [if_neg hs]
      rw [shadowPatternMatch_iff]
      constructor
      · intro h; exact ⟨h, hs⟩
      · intro h; exact h.1
  · decide

/-! ## C6: `strategy.ListShadowBranches`

A repository's reference state is modelled as the list of its full
reference names (e.g. `refs/heads/main`, `HEAD`).  go-git's
`Name().IsBranch()` is a `refs/heads/` prefix test, and the branch name is
obtained by `strings.TrimPrefix`. -/

/-- `plumbing.ReferenceName.IsBranch`: the name starts with `refs/heads/`. -/
def isBranchRef (ref : String) : Bool :=
  ("refs/heads/".data).isPrefixOf ref.data

/-- `strings.TrimPrefix(ref, "refs/heads/")`. -/
def trimRefsHeads (ref : String) : String :=
  if isBranchRef ref then ⟨ref.data.drop 11⟩ else ref

/-- Body of the `ForEach` callback in `ListShadowBranches`, applied to one
reference with the accumulated (possibly nil) slice. -/
def listShadowStep (acc : Option (List String)) (ref : String) :
    Option (List String) :=
  if isBranchRef ref then
    let branchName := trimRefsHeads ref
    if IsShadowBranch branchName then goAppend acc branchName else acc
  else acc

/-- `strategy.ListShadowBranches`: iterate all references, collect shadow
branch names, and replace a nil slice by an empty one before returning. -/
def ListShadowBranches (refs : List String) : Option (List String) :=
  let shadowBranches := refs.foldl listShadowStep none
  some (shadowBranches.getD [])

theorem goAppend_getD {α : Type} (s : Option (List α)) (x : α) :
    (goAppend s x).getD [] = s.getD [] ++ [x] := by
  cases s <;> rfl

theorem listShadowStep_getD (acc : Option (List String)) (ref : String) :
    (listShadowStep acc ref).getD [] =
      acc.getD [] ++
        (if isBranchRef ref ∧ IsShadowBranch (trimRefsHeads ref) = true
         then [trimRefsHeads ref] else []) := by
  unfold listShadowStep
  by_cases hb : isBranchRef ref = true
  · by_cases hs : IsShadowBranch (trimRefsHeads ref) = true
    · simp [hb, hs, goAppend_getD]
    · simp [hb, hs]
  · simp [hb]

theorem listShadow_foldl (refs : List String) :
    ∀ acc : Option (List String),
      (refs.foldl listShadowStep acc).getD [] =
        acc.getD [] ++
          (((refs.filter fun r => isBranchRef r).map trimRefsHeads).filter
            fun n => IsShadowBranch n) := by
  induction refs with
  | nil => intro acc; simp
  | cons r rs ih =>
    intro acc
    simp only [List.foldl_cons, ih, listShadowStep_getD]
    by_cases hb : isBranchRef r = true
    · by_cases hs : IsShadowBranch (trimRefsHeads r) = true
      · simp [hb, hs, List.filter_cons]
      · simp [hb, hs, List.filter_cons]
    · simp [hb, List.filter_cons]

/-- C6: `ListShadowBranches` returns (non-nil) exactly the local branch
names satisfying the shadow predicate; on the five-branch example it
returns exactly `entire/abc1234` and `entire/def5678`; with no shadow
branches it returns an empty non-nil slice. -/
theorem C6_listShadowBranches_correct :
    (∀ refs : List String,
      ListShadowBranches refs =
        some (((refs.filter fun r => isBranchRef r).map trimRefsHeads).filter
          fun n => IsShadowBranch n)) ∧
    ListShadowBranches
        ["HEAD", "refs/heads/entire/abc1234", "refs/heads/entire/def5678",
         "refs/heads/entire/sessions", "refs/heads/feature/foo",
         "refs/heads/main"] =
      some ["entire/abc1234", "entire/def5678"] ∧
    ListShadowBranches ["HEAD", "refs/heads/main"] = some [] := by
  refine ⟨?_, by decide, by decide⟩
  intro refs
  show some ((refs.foldl listShadowStep none).getD []) = _
  rw [listShadow_foldl]
  rfl

/-! ## C5: `strategy.DeleteShadowBranches`

The repository is modelled by the list of its existing branch names;
looking up a missing reference fails (the branch is recorded in `failed`),
and removing an existing reference succeeds.  The two result slices are
named Go return values starting out nil. -/

/-- The `for` loop of `DeleteShadowBranches` over the remaining branches,
threading the repository state and the two (possibly nil) result slices. -/
def deleteLoop (repo : List String) (branches : List String)
    (deleted failed : Option (List String)) :
    Option (List String) × Option (List String) × List String :=
  match branches with
  | [] => (deleted, failed, repo)
  | b :: rest =>
    if b ∈ repo then
      deleteLoop (repo.erase b) rest (goAppend deleted b) failed
    else
      deleteLoop repo rest deleted (goAppend failed b)

/-- `strategy.DeleteShadowBranches`: empty input short-circuits with two
fresh empty slices; otherwise every branch is attempted in order. -/
def DeleteShadowBranches (repo : List String) (branches : List String) :
    Option (List String) × Option (List String) × List String :=
  if branches.isEmpty then (some [], some [], repo)
  else deleteLoop repo branches none none

theorem deleteLoop_count (branches : List String) :
    ∀ (repo : List String) (deleted failed : Option (List String))
      (x : String),
      ((deleteLoop repo branches deleted failed).1.getD [] ++
        (deleteLoop repo branches deleted failed).2.1.getD []).count x =
      (deleted.getD [] ++ failed.getD []).count x + branches.count x := by
  induction branches with
  | nil => intro repo deleted failed x; simp [deleteLoop]
  | cons b rest ih =>
    intro repo deleted failed x
    unfold deleteLoop
    by_cases hb : b ∈ repo
    · simp only [if_pos hb, ih, goAppend_getD, List.count_append,
        List.count_cons]
      rcases em (b = x) with h | h <;> simp [h] <;> try omega
    · simp only [if_neg hb, ih, goAppend_getD, List.count_append,
        List.count_cons]
      rcases em (b = x) with h | h <;> simp [h] <;> try omega

/-- C5 counterexample: on a repository with no branches, deleting the single
(nonexistent) branch `entire/doesnotexist` makes every deletion fail, and the
returned `deleted` slice is nil — not the promised non-nil empty slice —
while `failed` collects the branch. -/
theorem C5_counterexample_deleted_nil :
    (DeleteShadowBranches [] ["entire/doesnotexist"]).1 = none ∧
    (DeleteShadowBranches [] ["entire/doesnotexist"]).2.1 =
      some ["entire/doesnotexist"] := by
  constructor <;> rfl

/-- C5 (amended): every input branch is attempted regardless of individual
failures and lands in exactly one of the two result slices (their contents
together are a permutation of the input); on empty input both slices are
non-nil empty slices.  On non-empty input a slice that receives no
elements is returned as a nil slice. -/
theorem C5_deleteShadowBranches_amended :
    ∀ (repo branches : List String),
      ((DeleteShadowBranches repo branches).1.getD [] ++
        (DeleteShadowBranches repo branches).2.1.getD []).Perm branches ∧
      (branches = [] →
        DeleteShadowBranches repo branches = (some [], some [], repo)) := by
  intro repo branches
  constructor
  · rw [List.perm_iff_count]
    intro x
    unfold DeleteShadowBranches
    cases branches with
    | nil => simp
    | cons b rest =>
      simp only [List.isEmpty_cons, if_neg (by decide : ¬false = true)]
      rw [deleteLoop_count]
      simp
  · intro h
    subst h
    rfl

/-- C5 witness: the amended theorem applied at a concrete repository and
input list, and at the empty input. -/
theorem C5_witness :
    ((DeleteShadowBranches ["entire/abc1234"]
        ["entire/abc1234", "entire/missing"]).1.getD [] ++
      (DeleteShadowBranches ["entire/abc1234"]
        ["entire/abc1234", "entire/missing"]).2.1.getD []).Perm
      ["entire/abc1234", "entire/missing"] ∧
    DeleteShadowBranches ["entire/abc1234"] [] =
      (some [], some [], ["entire/abc1234"]) :=
  ⟨(C5_deleteShadowBranches_amended ["entire/abc1234"]
      ["entire/abc1234", "entire/missing"]).1,
   (C5_deleteShadowBranches_amended ["entire/abc1234"] []).2 rfl⟩

/-! ## Byte-level model of Go strings

`cleanPromptForCommit` indexes and slices the raw bytes of its input
(`cleaned[:72]`, `cleaned[0]`), so it is modelled over `List Nat` of UTF-8
bytes.  The helpers below model the parts of Go's `strings`, `unicode` and
`unicode/utf8` packages that it calls. -/

/-- The UTF-8 bytes of an ASCII string literal. -/
def asciiBytes (s : String) : List Nat := s.data.map Char.toNat

/-- Go `utf8.DecodeRune`: decode the first rune of a byte sequence,
returning the code point and the number of bytes consumed.  Malformed
input yields `(U+FFFD, 1)`; empty input yields `(U+FFFD, 0)`. -/
def utf8DecodeFull (s : List Nat) : Nat × Nat :=
  match s with
  | [] => (0xFFFD, 0)
  | b0 :: rest =>
    if b0 < 0x80 then (b0, 1)
    else if 0xC2 ≤ b0 ∧ b0 ≤ 0xDF then
      match rest with
      | b1 :: _ =>
        if 0x80 ≤ b1 ∧ b1 ≤ 0xBF then ((b0 - 0xC0) * 64 + (b1 - 0x80), 2)
        else (0xFFFD, 1)
      | [] => (0xFFFD, 1)
    else if 0xE0 ≤ b0 ∧ b0 ≤ 0xEF then
      match rest with
      | b1 :: rest2 =>
        let lo := if b0 = 0xE0 then 0xA0 else 0x80
        let hi := if b0 = 0xED then 0x9F else 0xBF
        if lo ≤ b1 ∧ b1 ≤ hi then
          match rest2 with
          | b2 :: _ =>
            if 0x80 ≤ b2 ∧ b2 ≤ 0xBF then
              ((b0 - 0xE0) * 4096 + (b1 - 0x80) * 64 + (b2 - 0x80), 3)
            else (0xFFFD, 1)
          | [] => (0xFFFD, 1)
        else (0xFFFD, 1)
      | [] => (0xFFFD, 1)
    else if 0xF0 ≤ b0 ∧ b0 ≤ 0xF4 then
      match rest with
      | b1 :: rest2 =>
        let lo := if b0 = 0xF0 then 0x90 else 0x80
        let hi := if b0 = 0xF4 then 0x8F else 0xBF
        if lo ≤ b1 ∧ b1 ≤ hi then
          match rest2 with
          | b2 :: rest3 =>
            if 0x80 ≤ b2 ∧ b2 ≤ 0xBF then
              match rest3 with
              | b3 :: _ =>
                if 0x80 ≤ b3 ∧ b3 ≤ 0xBF then
                  ((b0 - 0xF0) * 262144 + (b1 - 0x80) * 4096 +
                    (b2 - 0x80) * 64 + (b3 - 0x80), 4)
                else (0xFFFD, 1)
              | [] => (0xFFFD, 1)
            else (0xFFFD, 1)
          | [] => (0xFFFD, 1)
        else (0xFFFD, 1)
      | [] => (0xFFFD, 1)
    else (0xFFFD, 1)

theorem utf8DecodeFull_size_pos (s : List Nat) (hs : s ≠ []) :
    1 ≤ (utf8DecodeFull s).2 := by
  unfold utf8DecodeFull
  repeat' split
  all_goals try simp_all
  all_goals repeat' split
  all_goals simp_all

theorem utf8DecodeFull_size_le (s : List Nat) :
    (utf8DecodeFull s).2 ≤ s.length := by
  unfold utf8DecodeFull
  repeat' split
  all_goals try simp_all
  all_goals repeat' split
  all_goals simp_all

theorem utf8DecodeFull_one (b0 : Nat) (rest : List Nat) (h : b0 < 0x80) :
    utf8DecodeFull (b0 :: rest) = (b0, 1) := by
  simp [utf8DecodeFull, h]

theorem utf8DecodeFull_two (b0 b1 : Nat) (rest : List Nat)
    (h0 : 0xC2 ≤ b0 ∧ b0 ≤ 0xDF) (h1 : 0x80 ≤ b1 ∧ b1 ≤ 0xBF) :
    utf8DecodeFull (b0 :: b1 :: rest) = ((b0 - 0xC0) * 64 + (b1 - 0x80), 2) := by
  have hn : ¬ b0 < 0x80 := by omega
  simp only [utf8DecodeFull, if_neg hn, if_pos h0, if_pos h1]

/-- Go `utf8.RuneStart`: a byte that does not have the continuation-byte
form `10xxxxxx`. -/
def runeStart (b : Nat) : Bool :=
  decide (b < 0x80) || decide (0xC0 ≤ b)

/-- The distance, counted from the end of the sequence, at which the
backwards scan of Go `utf8.DecodeLastRune` places the candidate start of
the final rune (at most four bytes back; `5` encodes the scan giving up on
a long tail of continuation bytes). -/
def lastRuneLen (s : List Nat) : Nat :=
  if 2 ≤ s.length ∧ runeStart (s.getD (s.length - 2) 0) then 2
  else if 3 ≤ s.length ∧ runeStart (s.getD (s.length - 3) 0) then 3
  else if 4 ≤ s.length ∧ runeStart (s.getD (s.length - 4) 0) then 4
  else if s.length ≤ 4 then s.length else 5

theorem lastRuneLen_pos (s : List Nat) (hs : s ≠ []) : 1 ≤ lastRuneLen s := by
  have h := List.length_pos.mpr hs
  unfold lastRuneLen
  repeat' split
  all_goals omega

/-- Go `utf8.DecodeLastRune`: decode the final rune of a byte sequence by
scanning backwards at most four bytes for a rune-start byte, then checking
that a forward decode from there consumes exactly the scanned bytes. -/
def utf8DecodeLast (s : List Nat) : Nat × Nat :=
  match s with
  | [] => (0xFFFD, 0)
  | _ :: _ =>
    if s.getD (s.length - 1) 0 < 0x80 then (s.getD (s.length - 1) 0, 1)
    else if (utf8DecodeFull (s.drop (s.length - lastRuneLen s))).2 =
        lastRuneLen s then
      ((utf8DecodeFull (s.drop (s.length - lastRuneLen s))).1, lastRuneLen s)
    else (0xFFFD, 1)

theorem utf8DecodeLast_size_pos (s : List Nat) (hs : s ≠ []) :
    1 ≤ (utf8DecodeLast s).2 := by
  unfold utf8DecodeLast
  cases s with
  | nil => simp at hs
  | cons b rest =>
    simp only []
    split
    · simp
    · split
      · exact lastRuneLen_pos _ hs
      · simp

/-- Go `unicode.ToUpper` (simple case mapping) restricted to code points
below `0x100`; this is the only range `cleanPromptForCommit` feeds it,
since `string(cleaned[0])` converts a single byte. -/
def unicodeToUpper (c : Nat) : Nat :=
  if 97 ≤ c ∧ c ≤ 122 then c - 32
  else if c = 0xB5 then 0x39C
  else if c = 0xFF then 0x178
  else if 0xE0 ≤ c ∧ c ≤ 0xFE ∧ c ≠ 0xF7 then c - 32
  else c

/-- UTF-8 encoding of a code point below `0x10000`. -/
def utf8EncodeRune (c : Nat) : List Nat :=
  if c < 0x80 then [c]
  else if c < 0x800 then [0xC0 + c / 64, 0x80 + c % 64]
  else [0xE0 + c / 4096, 0x80 + (c / 64) % 64, 0x80 + c % 64]

/-- The number of runes obtained by repeatedly decoding the first rune, as
Go's `utf8.RuneCount` / `for range` iteration does.  The first argument
bounds the number of decode steps; since every decode step consumes at
least one byte, `s.length` steps always suffice. -/
def runeCountGas : Nat → List Nat → Nat
  | 0, _ => 0
  | g + 1, s =>
    if s = [] then 0
    else 1 + runeCountGas g (s.drop (utf8DecodeFull s).2)

def runeCount (s : List Nat) : Nat := runeCountGas s.length s

/-- Go's `asciiSpace` table in package `strings`. -/
def asciiSpace (b : Nat) : Bool :=
  b == 9 || b == 10 || b == 11 || b == 12 || b == 13 || b == 32

/-- Go `unicode.IsSpace` (the White_Space property). -/
def isSpaceRune (r : Nat) : Bool :=
  r == 9 || r == 10 || r == 11 || r == 12 || r == 13 || r == 32 ||
  r == 0x85 || r == 0xA0 || r == 0x1680 ||
  (decide (0x2000 ≤ r) && decide (r ≤ 0x200A)) ||
  r == 0x2028 || r == 0x2029 || r == 0x202F || r == 0x205F || r == 0x3000

/-- Go `strings.TrimLeftFunc(s, unicode.IsSpace)` on bytes.  The gas
argument bounds the number of trim steps; each step consumes at least one
byte, so `s.length` steps always suffice. -/
def trimLeftSpaceUniGas : Nat → List Nat → List Nat
  | 0, s => s
  | g + 1, s =>
    if s = [] then []
    else if isSpaceRune (utf8DecodeFull s).1 then
      trimLeftSpaceUniGas g (s.drop (utf8DecodeFull s).2)
    else s

def trimLeftSpaceUni (s : List Nat) : List Nat := trimLeftSpaceUniGas s.length s

/-- Go `strings.TrimRightFunc(s, unicode.IsSpace)` on bytes, with a gas
bound on the number of trim steps as for the left trim. -/
def trimRightSpaceUniGas : Nat → List Nat → List Nat
  | 0, s => s
  | g + 1, s =>
    if s = [] then []
    else if isSpaceRune (utf8DecodeLast s).1 then
      trimRightSpaceUniGas g (s.take (s.length - (utf8DecodeLast s).2))
    else s

def trimRightSpaceUni (s : List Nat) : List Nat :=
  trimRightSpaceUniGas s.length s

/-- The right-to-left ASCII scan of Go `strings.TrimSpace`, entered after
the left scan stopped on a plain byte.  Gas-bounded as above; each step
drops the final byte. -/
def trimSpaceAsciiRightGas : Nat → List Nat → List Nat
  | 0, s => s
  | g + 1, s =>
    if s = [] then []
    else if 0x80 ≤ s.getD (s.length - 1) 0 then trimRightSpaceUni s
    else if asciiSpace (s.getD (s.length - 1) 0) then
      trimSpaceAsciiRightGas g s.dropLast
    else s

def trimSpaceAsciiRight (s : List Nat) : List Nat :=
  trimSpaceAsciiRightGas s.length s

/-- Go `strings.TrimSpace` on bytes: ASCII fast path with a fallback to
the Unicode trim functions on the first high byte encountered. -/
def goTrimSpace (s : List Nat) : List Nat :=
  match s with
  | [] => []
  | b :: rest =>
    if 0x80 ≤ b then trimRightSpaceUni (trimLeftSpaceUni (b :: rest))
    else if asciiSpace b then goTrimSpace rest
    else trimSpaceAsciiRight (b :: rest)

theorem trimLeftSpaceUniGas_length (g : Nat) :
    ∀ s : List Nat, (trimLeftSpaceUniGas g s).length ≤ s.length := by
  induction g with
  | zero => intro s; simp [trimLeftSpaceUniGas]
  | succ g ih =>
    intro s
    rw [trimLeftSpaceUniGas]
    split
    · simp
    · split
      · calc (trimLeftSpaceUniGas g (s.drop (utf8DecodeFull s).2)).length
            ≤ (s.drop (utf8DecodeFull s).2).length := ih _
          _ ≤ s.length := by simp
      · exact le_refl _

theorem trimLeftSpaceUni_length (s : List Nat) :
    (trimLeftSpaceUni s).length ≤ s.length :=
  trimLeftSpaceUniGas_length s.length s

theorem trimLeftSpaceUniGas_subset (g : Nat) :
    ∀ s : List Nat, ∀ x ∈ trimLeftSpaceUniGas g s, x ∈ s := by
  induction g with
  | zero => intro s; simp [trimLeftSpaceUniGas]
  | succ g ih =>
    intro s
    rw [trimLeftSpaceUniGas]
    split
    · simp
    · split
      · intro x hx
        exact List.drop_subset _ _ (ih _ x hx)
      · intro x hx; exact hx

theorem trimLeftSpaceUni_subset (s : List Nat) :
    ∀ x ∈ trimLeftSpaceUni s, x ∈ s :=
  trimLeftSpaceUniGas_subset s.length s

theorem trimRightSpaceUniGas_length (g : Nat) :
    ∀ s : List Nat, (trimRightSpaceUniGas g s).length ≤ s.length := by
  induction g with
  | zero => intro s; simp [trimRightSpaceUniGas]
  | succ g ih =>
    intro s
    rw [trimRightSpaceUniGas]
    split
    · simp
    · split
      · calc (trimRightSpaceUniGas g
              (s.take (s.length - (utf8DecodeLast s).2))).length
            ≤ (s.take (s.length - (utf8DecodeLast s).2)).length := ih _
          _ ≤ s.length := by simp
      · exact le_refl _

theorem trimRightSpaceUni_length (s : List Nat) :
    (trimRightSpaceUni s).length ≤ s.length :=
  trimRightSpaceUniGas_length s.length s

theorem trimRightSpaceUniGas_subset (g : Nat) :
    ∀ s : List Nat, ∀ x ∈ trimRightSpaceUniGas g s, x ∈ s := by
  induction g with
  | zero => intro s; simp [trimRightSpaceUniGas]
  | succ g ih =>
    intro s
    rw [trimRightSpaceUniGas]
    split
    · simp
    · split
      · intro x hx
        exact List.take_subset _ _ (ih _ x hx)
      · intro x hx; exact hx

theorem trimRightSpaceUni_subset (s : List Nat) :
    ∀ x ∈ trimRightSpaceUni s, x ∈ s :=
  trimRightSpaceUniGas_subset s.length s

theorem trimSpaceAsciiRightGas_length (g : Nat) :
    ∀ s : List Nat, (trimSpaceAsciiRightGas g s).length ≤ s.length := by
  induction g with
  | zero => intro s; simp [trimSpaceAsciiRightGas]
  | succ g ih =>
    intro s
    rw [trimSpaceAsciiRightGas]
    split
    · simp
    · split
      · exact trimRightSpaceUni_length s
      · split
        · calc (trimSpaceAsciiRightGas g s.dropLast).length
              ≤ s.dropLast.length := ih _
            _ ≤ s.length := by simp [List.length_dropLast]
        · exact le_refl _

theorem trimSpaceAsciiRight_length (s : List Nat) :
    (trimSpaceAsciiRight s).length ≤ s.length :=
  trimSpaceAsciiRightGas_length s.length s

theorem trimSpaceAsciiRightGas_subset (g : Nat) :
    ∀ s : List Nat, ∀ x ∈ trimSpaceAsciiRightGas g s, x ∈ s := by
  induction g with
  | zero => intro s; simp [trimSpaceAsciiRightGas]
  | succ g ih =>
    intro s
    rw [trimSpaceAsciiRightGas]
    split
    · simp
    · split
      · exact trimRightSpaceUni_subset s
      · split
        · intro x hx
          exact List.dropLast_subset s (ih _ x hx)
        · intro x hx; exact hx

theorem trimSpaceAsciiRight_subset (s : List Nat) :
    ∀ x ∈ trimSpaceAsciiRight s, x ∈ s :=
  trimSpaceAsciiRightGas_subset s.length s

theorem goTrimSpace_length (s : List Nat) :
    (goTrimSpace s).length ≤ s.length := by
  induction s with
  | nil => simp [goTrimSpace]
  | cons b rest ih =>
    rw [goTrimSpace]
    split
    · calc (trimRightSpaceUni (trimLeftSpaceUni (b :: rest))).length
          ≤ (trimLeftSpaceUni (b :: rest)).length := trimRightSpaceUni_length _
        _ ≤ (b :: rest).length := trimLeftSpaceUni_length _
    · split
      · calc (goTrimSpace rest).length ≤ rest.length := ih
          _ ≤ (b :: rest).length := by simp
      · exact trimSpaceAsciiRight_length _

theorem goTrimSpace_subset (s : List Nat) : ∀ x ∈ goTrimSpace s, x ∈ s := by
  induction s with
  | nil => simp [goTrimSpace]
  | cons b rest ih =>
    rw [goTrimSpace]
    split
    · intro x hx
      exact trimLeftSpaceUni_subset _ x (trimRightSpaceUni_subset _ x hx)
    · split
      · intro x hx
        exact List.mem_cons_of_mem b (ih x hx)
      · exact trimSpaceAsciiRight_subset _

theorem runeCountGas_nil (g : Nat) : runeCountGas g [] = 0 := by
  cases g <;> simp [runeCountGas]

theorem runeCountGas_le_length (g : Nat) :
    ∀ s : List Nat, runeCountGas g s ≤ s.length := by
  induction g with
  | zero => intro s; simp [runeCountGas]
  | succ g ih =>
    intro s
    rw [runeCountGas]
    split
    · simp
    · rename_i hs
      have hpos := utf8DecodeFull_size_pos s hs
      have hlen : 0 < s.length := List.length_pos.mpr hs
      have hih := ih (s.drop (utf8DecodeFull s).2)
      simp only [List.length_drop] at hih
      omega

theorem runeCount_le_length (s : List Nat) : runeCount s ≤ s.length :=
  runeCountGas_le_length s.length s

theorem runeCountGas_congr (g₁ : Nat) :
    ∀ (s : List Nat) (g₂ : Nat), s.length ≤ g₁ → s.length ≤ g₂ →
      runeCountGas g₁ s = runeCountGas g₂ s := by
  induction g₁ with
  | zero =>
    intro s g₂ h1 h2
    have hnil : s = [] := List.length_eq_zero.mp (Nat.le_zero.mp h1)
    subst hnil
    rw [runeCountGas_nil, runeCountGas_nil]
  | succ g ih =>
    intro s g₂ h1 h2
    by_cases hs : s = []
    · subst hs
      rw [runeCountGas_nil, runeCountGas_nil]
    · have hlen : 0 < s.length := List.length_pos.mpr hs
      cases g₂ with
      | zero => omega
      | succ g₂ =>
        rw [runeCountGas, runeCountGas]
        simp only [if_neg hs]
        have hpos := utf8DecodeFull_size_pos s hs
        have hd : (s.drop (utf8DecodeFull s).2).length =
            s.length - (utf8DecodeFull s).2 := by simp
        rw [ih (s.drop (utf8DecodeFull s).2) g₂ (by omega) (by omega)]

theorem runeCount_encode_append (u : Nat) (hu : u < 0x800) (rest : List Nat) :
    runeCount (utf8EncodeRune u ++ rest) = 1 + runeCount rest := by
  by_cases h : u < 0x80
  · rw [utf8EncodeRune, if_pos h]
    show runeCountGas (u :: rest).length (u :: rest) = 1 + runeCount rest
    rw [List.length_cons, runeCountGas]
    simp only [if_neg (List.cons_ne_nil u rest)]
    rw [utf8DecodeFull_one u rest h]
    simp only [List.drop_succ_cons, List.drop_zero]
    rw [runeCountGas_congr rest.length rest rest.length (le_refl _) (le_refl _)]
    rfl
  · have h8 : 0x80 ≤ u := le_of_not_lt h
    rw [utf8EncodeRune, if_neg h, if_pos hu]
    show runeCountGas ((0xC0 + u / 64) :: (0x80 + u % 64) :: rest).length
        ((0xC0 + u / 64) :: (0x80 + u % 64) :: rest) = 1 + runeCount rest
    rw [List.length_cons, runeCountGas]
    simp only [if_neg (List.cons_ne_nil _ _)]
    rw [utf8DecodeFull_two (0xC0 + u / 64) (0x80 + u % 64) rest
      (by constructor <;> omega) (by constructor <;> omega)]
    simp only [List.drop_succ_cons, List.drop_zero]
    show 1 + runeCountGas (rest.length + 1) rest = 1 + runeCount rest
    rw [runeCountGas_congr (rest.length + 1) rest rest.length
      (by omega) (le_refl _)]
    rfl

/-! ## C9/C10: `cleanPromptForCommit` and `generateCommitMessage` -/

/-- The politeness prefixes stripped by `cleanPromptForCommit`, in source
order.  Byte `39` is the ASCII apostrophe character. -/
def promptPfxs : List (List Nat) :=
  [asciiBytes "Can you ", asciiBytes "can you ",
   asciiBytes "Please ", asciiBytes "please ",
   asciiBytes "Let" ++ [39] ++ asciiBytes "s ",
   asciiBytes "let" ++ [39] ++ asciiBytes "s ",
   asciiBytes "Could you ", asciiBytes "could you ",
   asciiBytes "Would you ", asciiBytes "would you ",
   asciiBytes "I want you to ",
   asciiBytes "I" ++ [39] ++ asciiBytes "d like you to ",
   asciiBytes "I need you to "]

/-- The strip loop of `cleanPromptForCommit`: repeatedly remove the first
matching prefix until none matches.  Gas-bounded; every prefix is
non-empty, so `s.length` iterations always suffice. -/
def stripPromptPfxsGas : Nat → List Nat → List Nat
  | 0, s => s
  | g + 1, s =>
    match promptPfxs.find? (fun p => p.isPrefixOf s) with
    | some p => stripPromptPfxsGas g (s.drop p.length)
    | none => s

def stripPromptPfxs (s : List Nat) : List Nat := stripPromptPfxsGas s.length s

/-- Go `strings.TrimSuffix(s, "?")`: remove one trailing question mark
(byte 63) if present. -/
def trimSuffixQm (s : List Nat) : List Nat :=
  if ([63] : List Nat).isSuffixOf s then s.dropLast else s

/-- The truncation step `if len(cleaned) > 72 ... TrimSpace(cleaned[:72])`. -/
def truncate72 (s : List Nat) : List Nat :=
  if 72 < s.length then goTrimSpace (s.take 72) else s

/-- The capitalization step
`strings.ToUpper(string(cleaned[0])) + cleaned[1:]`, applied only to a
non-empty string: the first byte is converted to a code point, uppercased
and re-encoded as UTF-8. -/
def capitalizeFirstByte (s : List Nat) : List Nat :=
  match s with
  | [] => []
  | b :: rest => utf8EncodeRune (unicodeToUpper b) ++ rest

/-- `cleanPromptForCommit`: strip politeness prefixes, drop a trailing
question mark, trim whitespace, truncate to 72 bytes (re-trimming), and
capitalize the first letter. -/
def cleanPromptForCommit (prompt : List Nat) : List Nat :=
  capitalizeFirstByte (truncate72 (goTrimSpace (trimSuffixQm
    (stripPromptPfxs prompt))))

/-- The fallback commit message. -/
def promptDefault : List Nat := asciiBytes "Claude Code session updates"

/-- `generateCommitMessage`: the cleaned prompt if the prompt and its
cleaning are non-empty, the fixed default otherwise. -/
def generateCommitMessage (originalPrompt : List Nat) : List Nat :=
  if originalPrompt ≠ [] then
    if cleanPromptForCommit originalPrompt ≠ [] then
      cleanPromptForCommit originalPrompt
    else promptDefault
  else promptDefault

theorem stripPromptPfxsGas_subset (g : Nat) :
    ∀ s : List Nat, ∀ x ∈ stripPromptPfxsGas g s, x ∈ s := by
  induction g with
  | zero => intro s; simp [stripPromptPfxsGas]
  | succ g ih =>
    intro s
    rw [stripPromptPfxsGas]
    split
    · intro x hx
      exact List.drop_subset _ _ (ih _ x hx)
    · intro x hx; exact hx

theorem stripPromptPfxs_subset (s : List Nat) :
    ∀ x ∈ stripPromptPfxs s, x ∈ s :=
  stripPromptPfxsGas_subset s.length s

theorem trimSuffixQm_subset (s : List Nat) :
    ∀ x ∈ trimSuffixQm s, x ∈ s := by
  unfold trimSuffixQm
  split
  · intro x hx
    exact List.dropLast_subset s hx
  · intro x hx; exact hx

theorem truncate72_length (s : List Nat) : (truncate72 s).length ≤ 72 ∨
    (truncate72 s).length ≤ s.length := by
  unfold truncate72
  split
  · left
    calc (goTrimSpace (s.take 72)).length ≤ (s.take 72).length :=
        goTrimSpace_length _
      _ ≤ 72 := by simp
  · right; exact le_refl _

theorem truncate72_le_72 (s : List Nat) : (truncate72 s).length ≤ 72 := by
  unfold truncate72
  split
  · calc (goTrimSpace (s.take 72)).length ≤ (s.take 72).length :=
        goTrimSpace_length _
      _ ≤ 72 := by simp
  · omega

theorem truncate72_subset (s : List Nat) : ∀ x ∈ truncate72 s, x ∈ s := by
  unfold truncate72
  split
  · intro x hx
    exact List.take_subset _ _ (goTrimSpace_subset _ x hx)
  · intro x hx; exact hx

theorem unicodeToUpper_lt (c : Nat) (hc : c < 256) :
    unicodeToUpper c < 0x800 := by
  unfold unicodeToUpper
  repeat' split
  all_goals omega

/-- C9: the cleaned prompt is the result of repeatedly stripping the
politeness prefixes, dropping a trailing question mark, trimming
whitespace, truncating to at most 72 characters, and capitalizing the
first letter; in particular, for every (byte-valued) input the result
holds at most 72 characters. -/
theorem C9_cleanPrompt_at_most_72_chars :
    ∀ prompt : List Nat, (∀ b ∈ prompt, b < 256) →
      runeCount (cleanPromptForCommit prompt) ≤ 72 := by
  intro prompt hb
  unfold cleanPromptForCommit
  have hsub : ∀ x ∈ truncate72 (goTrimSpace (trimSuffixQm
      (stripPromptPfxs prompt))), x < 256 := by
    intro x hx
    exact hb x (stripPromptPfxs_subset _ x (trimSuffixQm_subset _ x
      (goTrimSpace_subset _ x (truncate72_subset _ x hx))))
  have hlen : (truncate72 (goTrimSpace (trimSuffixQm
      (stripPromptPfxs prompt)))).length ≤ 72 := truncate72_le_72 _
  cases hc : truncate72 (goTrimSpace (trimSuffixQm
      (stripPromptPfxs prompt))) with
  | nil => simp [capitalizeFirstByte, runeCount, runeCountGas]
  | cons b rest =>
    rw [capitalizeFirstByte]
    have hb256 : b < 256 := by
      apply hsub
      rw [hc]
      exact List.mem_cons_self b rest
    have hu := unicodeToUpper_lt b hb256
    rw [runeCount_encode_append _ hu]
    have h1 := runeCount_le_length rest
    have h2 : rest.length + 1 ≤ 72 := by
      rw [hc] at hlen
      simpa using hlen
    omega

/-- C9 witness: the bound evaluated at a concrete prompt. -/
theorem C9_witness :
    runeCount (cleanPromptForCommit
      (asciiBytes "Can you please fix this bug?")) ≤ 72 :=
  C9_cleanPrompt_at_most_72_chars
    (asciiBytes "Can you please fix this bug?") (by decide)

/-- C10: `generateCommitMessage` never returns an empty string: it returns
the cleaned prompt when the prompt and its cleaning are non-empty, and the
fixed default `Claude Code session updates` otherwise. -/
theorem C10_generateCommitMessage_nonempty :
    (∀ p : List Nat, generateCommitMessage p ≠ []) ∧
    (∀ p : List Nat, p ≠ [] → cleanPromptForCommit p ≠ [] →
      generateCommitMessage p = cleanPromptForCommit p) ∧
    (∀ p : List Nat, p = [] ∨ cleanPromptForCommit p = [] →
      generateCommitMessage p = promptDefault) := by
  have hdef : promptDefault ≠ [] := by decide
  refine ⟨?_, ?_, ?_⟩
  · intro p
    unfold generateCommitMessage
    split
    · split
      · assumption
      · exact hdef
    · exact hdef
  · intro p hp hc
    simp [generateCommitMessage, hp, hc]
  · intro p hp
    rcases hp with hp | hp
    · simp [generateCommitMessage, hp]
    · simp [generateCommitMessage, hp]

/-- C10 witness: evaluated at the empty prompt, at a prompt whose cleaning
is non-empty, and at a prompt that cleans to empty (a lone question mark). -/
theorem C10_witness :
    generateCommitMessage [] = promptDefault ∧
    generateCommitMessage (asciiBytes "fix the bug") =
      cleanPromptForCommit (asciiBytes "fix the bug") ∧
    generateCommitMessage (asciiBytes "?") = promptDefault :=
  ⟨(C10_generateCommitMessage_nonempty.2.2) [] (Or.inl rfl),
   (C10_generateCommitMessage_nonempty.2.1) (asciiBytes "fix the bug")
     (by decide) (by decide),
   (C10_generateCommitMessage_nonempty.2.2) (asciiBytes "?")
     (Or.inr (by decide))⟩

/-! ## C4: trailer emission (`CreateSquashedBranch`) and the trailer codec

Commit messages are modelled as `List Char`.  The emission side is
translated from `CreateSquashedBranch` in `summarize.go`; the parsing side
of the trailer codec is not part of the source tree, so it is modelled from
the specification (final paragraph, lines matching
`^[A-Za-z][A-Za-z0-9-]*:\s?.*$`, malformed lines skipped). -/

/-- Byte-lexicographic string comparison, as used by Go `sort.Strings`. -/
def lexLe : List Char → List Char → Bool
  | [], _ => true
  | _ :: _, [] => false
  | a :: as, b :: bs => if a < b then true else if b < a then false else lexLe as bs

theorem lexLe_total_bool : ∀ a b : List Char, lexLe a b = true ∨ lexLe b a = true := by
  intro a
  induction a with
  | nil => intro b; left; rfl
  | cons x xs ih =>
    intro b
    cases b with
    | nil => right; rfl
    | cons y ys =>
      rcases lt_trichotomy x y with h | h | h
      · left; simp [lexLe, h]
      · subst h
        rcases ih ys with h2 | h2
        · left; simp [lexLe, lt_irrefl, h2]
        · right; simp [lexLe, lt_irrefl, h2]
      · right; simp [lexLe, h]

theorem lexLe_trans_bool : ∀ a b c : List Char,
    lexLe a b = true → lexLe b c = true → lexLe a c = true := by
  intro a
  induction a with
  | nil => intro b c _ _; rfl
  | cons x xs ih =>
    intro b c hab hbc
    cases b with
    | nil => simp [lexLe] at hab
    | cons y ys =>
      cases c with
      | nil => simp [lexLe] at hbc
      | cons z zs =>
        rcases lt_trichotomy x y with h1 | h1 | h1
        · rcases lt_trichotomy y z with h2 | h2 | h2
          · have h3 : x < z := lt_trans h1 h2
            simp [lexLe, h3]
          · subst h2
            simp [lexLe, h1]
          · simp [lexLe, asymm h2, h2] at hbc
        · subst h1
          simp only [lexLe, if_neg (lt_irrefl x)] at hab
          rcases lt_trichotomy x z with h2 | h2 | h2
          · simp [lexLe, h2]
          · subst h2
            simp only [lexLe, if_neg (lt_irrefl x)] at hbc ⊢
            exact ih ys zs hab hbc
          · simp [lexLe, asymm h2, h2] at hbc
        · simp [lexLe, asymm h1, h1] at hab

/-- The trailer-key relation used for sorting. -/
def keyLe (a b : List Char) : Prop := lexLe a b = true

instance : DecidableRel keyLe := fun a b => by
  unfold keyLe
  infer_instance

instance : IsTotal (List Char) keyLe := ⟨lexLe_total_bool⟩

instance : IsTrans (List Char) keyLe := ⟨lexLe_trans_bool⟩

/-- `sort.Strings(keys)`: the keys in ascending byte-lexicographic order. -/
def sortKeys (keys : List (List Char)) : List (List Char) :=
  keys.insertionSort keyLe

/-- `trailers[key]` for a map represented as an association list. -/
def lookupD (trailers : List (List Char × List Char)) (k : List Char) :
    List Char :=
  ((trailers.find? fun p => decide (p.1 = k)).map Prod.snd).getD []

/-- One `Key: Value` line: `fmt.Sprintf("%s: %s", key, value)`. -/
def trailerLine (k v : List Char) : List Char := k ++ ':' :: ' ' :: v

/-- The trailer block built by the `strings.Builder` loop of
`CreateSquashedBranch`: for each key in sorted order,
`fmt.Sprintf("\n%s: %s", key, trailers[key])`. -/
def buildTrailerBlock (trailers : List (List Char × List Char)) : List Char :=
  ((sortKeys (trailers.map Prod.fst)).map
    fun k => '\n' :: trailerLine k (lookupD trailers k)).flatten

/-- The commit message built by `CreateSquashedBranch`: the message plus,
when any trailers are present, one separating newline and the trailer
block. -/
def buildCommitMessage (message : List Char)
    (trailers : List (List Char × List Char)) : List Char :=
  if trailers = [] then message
  else message ++ '\n' :: buildTrailerBlock trailers

/-- Split a message into lines at newline characters. -/
def splitLines (s : List Char) : List (List Char) :=
  match s with
  | [] => [[]]
  | c :: rest =>
    if c = '\n' then [] :: splitLines rest
    else
      match splitLines rest with
      | [] => [[c]]
      | l :: ls => (c :: l) :: ls

/-- Modelled from the spec: the final paragraph of a commit message — the
lines after the last blank line, ignoring trailing blank lines (the trailer
codec's parser is not part of the source tree). -/
def lastParagraph (lines : List (List Char)) : List (List Char) :=
  (((lines.reverse.dropWhile fun l => l.isEmpty).takeWhile
    fun l => !l.isEmpty)).reverse

/-- First character of a trailer key: `[A-Za-z]`. -/
def isKeyStart (c : Char) : Bool :=
  (decide ('A' ≤ c) && decide (c ≤ 'Z')) ||
  (decide ('a' ≤ c) && decide (c ≤ 'z'))

/-- Subsequent characters of a trailer key: `[A-Za-z0-9-]`. -/
def isKeyChar (c : Char) : Bool :=
  isKeyStart c || (decide ('0' ≤ c) && decide (c ≤ '9')) || c == '-'

/-- The `\s` class of the trailer grammar. -/
def isSpaceClass (c : Char) : Bool :=
  c == ' ' || c == '\t' || c == '\n' || c == '\x0c' || c == '\r'

/-- Drop the optional single whitespace after the colon (`:\s?`). -/
def dropSepSpace (v : List Char) : List Char :=
  match v with
  | c :: rest => if isSpaceClass c then rest else c :: rest
  | [] => []

/-- Modelled from the spec: parse one candidate trailer line against
`^[A-Za-z][A-Za-z0-9-]*:\s?.*$`, returning the key and value; malformed
lines yield `none` and are skipped. -/
def parseTrailerLine (l : List Char) : Option (List Char × List Char) :=
  match l.dropWhile fun c => !(c == ':') with
  | c0 :: rest2 =>
    if c0 = ':' then
      match l.takeWhile fun c => !(c == ':') with
      | [] => none
      | c :: krest =>
        if isKeyStart c && krest.all isKeyChar then
          some (c :: krest, dropSepSpace rest2)
        else none
    else none
  | [] => none

/-- Modelled from the spec: parse the trailers of a commit message — the
well-formed `Key: Value` lines of its final paragraph. -/
def parseTrailers (msg : List Char) : List (List Char × List Char) :=
  (lastParagraph (splitLines msg)).filterMap parseTrailerLine

/-- A well-formed trailer key: `[A-Za-z][A-Za-z0-9-]*`. -/
def validTrailerKey (k : List Char) : Bool :=
  match k with
  | [] => false
  | c :: rest => isKeyStart c && rest.all isKeyChar

theorem splitLines_cons (c : Char) (rest : List Char) :
    splitLines (c :: rest) =
      if c = '\n' then [] :: splitLines rest
      else
        match splitLines rest with
        | [] => [[c]]
        | l :: ls => (c :: l) :: ls := rfl

theorem splitLines_ne_nil (s : List Char) : splitLines s ≠ [] := by
  induction s with
  | nil => simp [splitLines]
  | cons c rest ih =>
    rw [splitLines_cons]
    split
    · simp
    · cases h : splitLines rest with
      | nil => simp
      | cons l ls => simp

theorem splitLines_append_newline (x y : List Char) :
    splitLines (x ++ '\n' :: y) = splitLines x ++ splitLines y := by
  induction x with
  | nil =>
    rw [List.nil_append, splitLines_cons, if_pos rfl]
    rfl
  | cons c rest ih =>
    rw [List.cons_append, splitLines_cons, splitLines_cons c rest]
    by_cases hc : c = '\n'
    · rw [if_pos hc, if_pos hc, ih]
      rfl
    · rw [if_neg hc, if_neg hc, ih]
      cases h : splitLines rest with
      | nil => exact absurd h (splitLines_ne_nil rest)
      | cons l ls => simp [h]

theorem splitLines_no_newline (l : List Char) (h : '\n' ∉ l) :
    splitLines l = [l] := by
  induction l with
  | nil => rfl
  | cons c rest ih =>
    have hc : ¬ c = '\n' := fun hcc => h (hcc ▸ List.mem_cons_self c rest)
    have hr : '\n' ∉ rest := fun hm => h (List.mem_cons_of_mem c hm)
    rw [splitLines_cons, if_neg hc, ih hr]

theorem splitLines_flatten (lines : List (List Char))
    (h : ∀ l ∈ lines, '\n' ∉ l) :
    splitLines ((lines.map fun l => '\n' :: l).flatten) = [] :: lines := by
  induction lines with
  | nil => simp [splitLines]
  | cons l ls ih =>
    have hl : '\n' ∉ l := h l (List.mem_cons_self l ls)
    have hls : ∀ m ∈ ls, '\n' ∉ m := fun m hm => h m (List.mem_cons_of_mem l hm)
    cases ls with
    | nil =>
      simp only [List.map_cons, List.map_nil, List.flatten_cons,
        List.flatten_nil, List.append_nil]
      rw [splitLines_cons, if_pos rfl, splitLines_no_newline l hl]
    | cons l2 ls2 =>
      have ihm := ih hls
      simp only [List.map_cons, List.flatten_cons] at ihm ⊢
      simp only [List.cons_append] at ihm ⊢
      rw [splitLines_cons, if_pos rfl] at ihm
      have h2 : splitLines (l2 ++ (List.map (fun m => '\n' :: m) ls2).flatten) =
          l2 :: ls2 := by
        injection ihm
      rw [splitLines_cons, if_pos rfl]
      rw [splitLines_append_newline, splitLines_no_newline l hl, h2]
      rfl

theorem takeWhile_all_append (A B : List (List Char))
    (hA : ∀ l ∈ A, l ≠ []) :
    (A ++ [] :: B).takeWhile (fun l => !l.isEmpty) = A := by
  induction A with
  | nil => simp [List.takeWhile]
  | cons a as ih =>
    have ha : a ≠ [] := hA a (List.mem_cons_self a as)
    have has : ∀ l ∈ as, l ≠ [] := fun l hl => hA l (List.mem_cons_of_mem a hl)
    simp only [List.cons_append, List.takeWhile_cons]
    have : (!a.isEmpty) = true := by
      cases a with
      | nil => exact absurd rfl ha
      | cons x xs => rfl
    rw [this]
    simp [ih has]

theorem lastParagraph_append (xs ys : List (List Char)) (hne : ys ≠ [])
    (hys : ∀ l ∈ ys, l ≠ []) :
    lastParagraph (xs ++ [] :: ys) = ys := by
  obtain ⟨a, t, hat⟩ : ∃ a t, ys.reverse = a :: t := by
    cases h : ys.reverse with
    | nil => exact absurd (by simpa using congrArg List.reverse h) hne
    | cons a t => exact ⟨a, t, rfl⟩
  have hmem : ∀ l ∈ a :: t, l ≠ [] := by
    intro l hl
    apply hys
    have : l ∈ ys.reverse := hat ▸ hl
    simpa using this
  have ha : a.isEmpty = false := by
    cases hcc : a with
    | nil => exact absurd hcc (hmem a (List.mem_cons_self a t))
    | cons u v => rfl
  have hrev : (xs ++ [] :: ys).reverse = (a :: t) ++ [] :: xs.reverse := by
    rw [List.reverse_append, List.reverse_cons, ← hat]
    simp
  unfold lastParagraph
  rw [hrev]
  have hdrop : ((a :: t) ++ [] :: xs.reverse).dropWhile (fun l => l.isEmpty) =
      (a :: t) ++ [] :: xs.reverse := by
    rw [List.cons_append, List.dropWhile_cons, ha]
    simp
  rw [hdrop, takeWhile_all_append (a :: t) xs.reverse hmem, ← hat,
    List.reverse_reverse]

theorem isKeyStart_ne (c : Char) (h : isKeyStart c = true) :
    ¬ c = ':' ∧ ¬ c = '\n' := by
  constructor
  · intro hc; subst hc; simp [isKeyStart] at h
  · intro hc; subst hc; simp [isKeyStart] at h

theorem isKeyChar_ne (c : Char) (h : isKeyChar c = true) :
    ¬ c = ':' ∧ ¬ c = '\n' := by
  constructor
  · intro hc; subst hc; simp [isKeyChar, isKeyStart] at h
  · intro hc; subst hc; simp [isKeyChar, isKeyStart] at h

theorem validKey_chars (k : List Char) (h : validTrailerKey k = true) :
    ∀ c ∈ k, ¬ c = ':' ∧ ¬ c = '\n' := by
  cases k with
  | nil => simp [validTrailerKey] at h
  | cons c rest =>
    simp only [validTrailerKey, Bool.and_eq_true, List.all_eq_true] at h
    intro x hx
    rcases List.mem_cons.mp hx with hx | hx
    · subst hx; exact isKeyStart_ne x h.1
    · exact isKeyChar_ne x (h.2 x hx)

theorem takeWhile_until_colon (k w : List Char) (hk : ∀ c ∈ k, ¬ c = ':') :
    (k ++ ':' :: w).takeWhile (fun c => !(c == ':')) = k ∧
    (k ++ ':' :: w).dropWhile (fun c => !(c == ':')) = ':' :: w := by
  induction k with
  | nil => simp [List.takeWhile_cons, List.dropWhile_cons]
  | cons c rest ih =>
    have hc : ¬ c = ':' := hk c (List.mem_cons_self c rest)
    have hrest : ∀ x ∈ rest, ¬ x = ':' :=
      fun x hx => hk x (List.mem_cons_of_mem c hx)
    have hcb : (!(c == ':')) = true := by
      simp [hc]
    constructor
    · simp only [List.cons_append, List.takeWhile_cons, hcb]
      simp [(ih hrest).1]
    · simp only [List.cons_append, List.dropWhile_cons, hcb]
      simp [(ih hrest).2]

theorem parseTrailerLine_trailerLine (k v : List Char)
    (hk : validTrailerKey k = true) :
    parseTrailerLine (trailerLine k v) = some (k, v) := by
  have hnc : ∀ c ∈ k, ¬ c = ':' := fun c hc => (validKey_chars k hk c hc).1
  cases k with
  | nil => simp [validTrailerKey] at hk
  | cons c rest =>
    have htd := takeWhile_until_colon (c :: rest) (' ' :: v) hnc
    unfold parseTrailerLine
    rw [show trailerLine (c :: rest) v = (c :: rest) ++ ':' :: ' ' :: v from rfl]
    rw [htd.2, htd.1]
    simp only [validTrailerKey, Bool.and_eq_true, List.all_eq_true] at hk
    have hcond : (isKeyStart c && rest.all isKeyChar) = true := by
      rw [Bool.and_eq_true, List.all_eq_true]
      exact hk
    simp only [if_pos rfl, hcond, if_pos]
    simp [dropSepSpace, isSpaceClass]

theorem trailerLine_no_newline (k v : List Char)
    (hk : validTrailerKey k = true) (hv : '\n' ∉ v) :
    '\n' ∉ trailerLine k v := by
  intro hmem
  unfold trailerLine at hmem
  rcases List.mem_append.mp hmem with h | h
  · exact (validKey_chars k hk '\n' h).2 rfl
  · rcases List.mem_cons.mp h with h | h
    · exact absurd h.symm (by decide)
    · rcases List.mem_cons.mp h with h | h
      · exact absurd h.symm (by decide)
      · exact hv h

theorem trailerLine_ne_nil (k v : List Char) : trailerLine k v ≠ [] := by
  cases k <;> simp [trailerLine]

theorem filterMap_parse_lines (f : List Char → List Char) :
    ∀ ks : List (List Char), (∀ k ∈ ks, validTrailerKey k = true) →
      ((ks.map fun k => trailerLine k (f k)).filterMap parseTrailerLine) =
        ks.map fun k => (k, f k) := by
  intro ks
  induction ks with
  | nil => intro _; simp
  | cons k rest ih =>
    intro h
    have hk := h k (List.mem_cons_self k rest)
    have hrest : ∀ x ∈ rest, validTrailerKey x = true :=
      fun x hx => h x (List.mem_cons_of_mem k hx)
    simp only [List.map_cons, List.filterMap_cons,
      parseTrailerLine_trailerLine k (f k) hk, ih hrest]

theorem lookupD_cons_self (k v0 : List Char)
    (rest : List (List Char × List Char)) :
    lookupD ((k, v0) :: rest) k = v0 := by
  simp [lookupD, List.find?_cons]

theorem lookupD_cons_ne (k0 v0 k : List Char)
    (rest : List (List Char × List Char)) (h : ¬ k = k0) :
    lookupD ((k0, v0) :: rest) k = lookupD rest k := by
  have hd : (decide ((k0, v0).1 = k)) = false := by
    simp
    exact fun hh => h hh.symm
  unfold lookupD
  rw [List.find?_cons, hd]

theorem lookupD_mem_iff (trailers : List (List Char × List Char))
    (hnd : (trailers.map Prod.fst).Nodup) (k v : List Char) :
    (k, v) ∈ trailers ↔
      k ∈ trailers.map Prod.fst ∧ lookupD trailers k = v := by
  induction trailers with
  | nil => simp [lookupD]
  | cons p rest ih =>
    obtain ⟨k0, v0⟩ := p
    simp only [List.map_cons, List.nodup_cons] at hnd
    by_cases hk : k = k0
    · subst hk
      have hnotin : (k, v) ∉ rest := fun hmem =>
        hnd.1 (List.mem_map.mpr ⟨(k, v), hmem, rfl⟩)
      constructor
      · intro hmem
        rcases List.mem_cons.mp hmem with h | h
        · injection h with h1 h2
          subst h2
          exact ⟨List.mem_cons_self _ _, lookupD_cons_self k v rest⟩
        · exact absurd h hnotin
      · rintro ⟨_, hl⟩
        rw [lookupD_cons_self] at hl
        subst hl
        exact List.mem_cons_self _ _
    · constructor
      · intro hmem
        rcases List.mem_cons.mp hmem with h | h
        · injection h with h1 h2
          exact absurd h1 hk
        · have hrest := (ih hnd.2).mp h
          refine ⟨List.mem_cons_of_mem _ hrest.1, ?_⟩
          rw [lookupD_cons_ne k0 v0 k rest hk]
          exact hrest.2
      · rintro ⟨hmem, hl⟩
        rcases List.mem_cons.mp hmem with h | h
        · exact absurd h hk
        · apply List.mem_cons_of_mem
          apply (ih hnd.2).mpr
          rw [lookupD_cons_ne k0 v0 k rest hk] at hl
          exact ⟨h, hl⟩

/-- C4 counterexample: for the singleton map sending `Alpha` to the
two-line value `x\nExtra: y`, the emitted message parses back to the two
pairs `(Alpha, x)` and `(Extra, y)`, so the parsed key-value set is not the
set passed in: the round-trip fails for values containing a newline. -/
theorem C4_counterexample_newline_value :
    ("Extra".data, "y".data) ∈
      parseTrailers (buildCommitMessage "msg".data
        [("Alpha".data, "x\nExtra: y".data)]) ∧
    ("Extra".data, "y".data) ∉ [("Alpha".data, "x\nExtra: y".data)] := by
  constructor
  · decide
  · decide

/-- C4 (amended): for every non-empty trailer map with distinct
grammar-valid keys and newline-free values, the message emitted by
`CreateSquashedBranch` carries the trailer lines in ascending
byte-lexicographic key order in its final paragraph, and parsing them back
yields exactly the key-value set passed in. -/
theorem C4_trailers_roundtrip_amended :
    ∀ (message : List Char) (trailers : List (List Char × List Char)),
      trailers ≠ [] →
      (trailers.map Prod.fst).Nodup →
      (∀ kv ∈ trailers, validTrailerKey kv.1 = true) →
      (∀ kv ∈ trailers, '\n' ∉ kv.2) →
      parseTrailers (buildCommitMessage message trailers) =
        (sortKeys (trailers.map Prod.fst)).map
          (fun k => (k, lookupD trailers k)) ∧
      List.Pairwise keyLe
        ((parseTrailers (buildCommitMessage message trailers)).map
          Prod.fst) ∧
      ∀ k v,
        (k, v) ∈ parseTrailers (buildCommitMessage message trailers) ↔
          (k, v) ∈ trailers := by
  intro message trailers hne hnd hkeys hvals
  have hperm := List.perm_insertionSort keyLe (trailers.map Prod.fst)
  have hmemkeys : ∀ k ∈ sortKeys (trailers.map Prod.fst),
      validTrailerKey k = true := by
    intro k hk
    have hmem : k ∈ trailers.map Prod.fst := hperm.mem_iff.mp hk
    rcases List.mem_map.mp hmem with ⟨kv, hkv, rfl⟩
    exact hkeys kv hkv
  have hvall : ∀ k ∈ sortKeys (trailers.map Prod.fst),
      '\n' ∉ lookupD trailers k := by
    intro k hk
    have hmem : k ∈ trailers.map Prod.fst := hperm.mem_iff.mp hk
    have hin : (k, lookupD trailers k) ∈ trailers :=
      (lookupD_mem_iff trailers hnd k _).mpr ⟨hmem, rfl⟩
    exact hvals _ hin
  have hkeysne : sortKeys (trailers.map Prod.fst) ≠ [] := by
    intro hempty
    have hlen := hperm.length_eq
    rw [show List.insertionSort keyLe (trailers.map Prod.fst) =
      sortKeys (trailers.map Prod.fst) from rfl, hempty] at hlen
    have : trailers.map Prod.fst = [] :=
      List.length_eq_zero.mp hlen.symm
    exact hne (List.map_eq_nil.mp this)
  have hparse : parseTrailers (buildCommitMessage message trailers) =
      (sortKeys (trailers.map Prod.fst)).map
        (fun k => (k, lookupD trailers k)) := by
    unfold parseTrailers buildCommitMessage
    rw [if_neg hne]
    unfold buildTrailerBlock
    rw [show (sortKeys (trailers.map Prod.fst)).map
        (fun k => '\n' :: trailerLine k (lookupD trailers k)) =
        ((sortKeys (trailers.map Prod.fst)).map
          (fun k => trailerLine k (lookupD trailers k))).map
          (fun l => '\n' :: l) from by rw [List.map_map]; rfl]
    rw [splitLines_append_newline]
    rw [splitLines_flatten _ (by
      intro l hl
      rcases List.mem_map.mp hl with ⟨k, hk, rfl⟩
      exact trailerLine_no_newline _ _ (hmemkeys k hk) (hvall k hk))]
    rw [lastParagraph_append _ _ (by
        intro hempty
        exact hkeysne (List.map_eq_nil.mp hempty))
      (by
        intro l hl
        rcases List.mem_map.mp hl with ⟨k, hk, rfl⟩
        exact trailerLine_ne_nil _ _)]
    exact filterMap_parse_lines _ _ hmemkeys
  refine ⟨hparse, ?_, ?_⟩
  · rw [hparse, List.map_map]
    have hcomp : (Prod.fst ∘ fun k => (k, lookupD trailers k)) =
        (id : List Char → List Char) := rfl
    rw [hcomp, List.map_id]
    exact List.sorted_insertionSort keyLe (trailers.map Prod.fst)
  · intro k v
    rw [hparse]
    constructor
    · intro hmem
      rcases List.mem_map.mp hmem with ⟨k0, hk0, heq⟩
      injection heq with h1 h2
      subst h1
      exact (lookupD_mem_iff trailers hnd k0 v).mpr
        ⟨hperm.mem_iff.mp hk0, h2⟩
    · intro hmem
      have hiff := (lookupD_mem_iff trailers hnd k v).mp hmem
      exact List.mem_map.mpr
        ⟨k, hperm.mem_iff.mpr hiff.1, by rw [hiff.2]⟩

/-- C4 witness: the amended theorem applied to the four-trailer example of
the alphabetical-ordering test; the parsed keys come back sorted and the
`Alpha-Trailer` pair round-trips. -/
theorem C4_witness :
    List.Pairwise keyLe
      ((parseTrailers (buildCommitMessage "feat: test trailer ordering".data
        [("Zebra-Trailer".data, "z".data), ("Alpha-Trailer".data, "a".data),
         ("Middle-Trailer".data, "m".data),
         ("Beta-Trailer".data, "b".data)])).map Prod.fst) ∧
    (("Alpha-Trailer".data, "a".data) ∈
      parseTrailers (buildCommitMessage "feat: test trailer ordering".data
        [("Zebra-Trailer".data, "z".data), ("Alpha-Trailer".data, "a".data),
         ("Middle-Trailer".data, "m".data),
         ("Beta-Trailer".data, "b".data)]) ↔
    ("Alpha-Trailer".data, "a".data) ∈
      [("Zebra-Trailer".data, "z".data), ("Alpha-Trailer".data, "a".data),
       ("Middle-Trailer".data, "m".data),
       ("Beta-Trailer".data, "b".data)]) :=
  ⟨(C4_trailers_roundtrip_amended "feat: test trailer ordering".data
      [("Zebra-Trailer".data, "z".data), ("Alpha-Trailer".data, "a".data),
       ("Middle-Trailer".data, "m".data), ("Beta-Trailer".data, "b".data)]
      (by decide) (by decide) (by decide) (by decide)).2.1,
   (C4_trailers_roundtrip_amended "feat: test trailer ordering".data
      [("Zebra-Trailer".data, "z".data), ("Alpha-Trailer".data, "a".data),
       ("Middle-Trailer".data, "m".data), ("Beta-Trailer".data, "b".data)]
      (by decide) (by decide) (by decide) (by decide)).2.2
      "Alpha-Trailer".data "a".data⟩

/-! ## C8: `ValidateSummarize`

The repository queries made by `ValidateSummarize` (current branch is the
default, target exists, worktree dirty, commits ahead of the merge base)
are modelled as a record of their results; the check sequence is
translated from `summarize.go`. -/

inductive SummarizeError where
  | onDefaultBranch
  | targetNotFound
  | uncommittedChanges
  | noCommitsToSummarize
deriving DecidableEq

structure SummarizeEnv where
  isDefault : Bool
  targetExists : Bool
  hasChanges : Bool
  commitsAhead : Nat

/-- `ValidateSummarize`: the four checks in source order; `none` means the
validation passed. -/
def ValidateSummarize (env : SummarizeEnv) (skipDefaultBranchCheck : Bool) :
    Option SummarizeError :=
  if !skipDefaultBranchCheck && env.isDefault then some .onDefaultBranch
  else if !env.targetExists then some .targetNotFound
  else if env.hasChanges then some .uncommittedChanges
  else if env.commitsAhead == 0 then some .noCommitsToSummarize
  else none

/-- C8: as invoked by summarize (no skip flag), `ValidateSummarize` errors
iff the current branch is the default, the target branch is missing, the
worktree has uncommitted changes, or no commits lie between the merge base
and HEAD — and passes iff none of these holds. -/
theorem C8_validateSummarize_correct :
    ∀ env : SummarizeEnv,
      ((ValidateSummarize env false).isSome = true ↔
        (env.isDefault = true ∨ env.targetExists = false ∨
         env.hasChanges = true ∨ env.commitsAhead = 0)) ∧
      (ValidateSummarize env false = none ↔
        (env.isDefault = false ∧ env.targetExists = true ∧
         env.hasChanges = false ∧ env.commitsAhead ≠ 0)) := by
  rintro ⟨d, t, h, c⟩
  unfold ValidateSummarize
  cases d <;> cases t <;> cases h <;> by_cases hc : c = 0 <;>
    simp_all

/-- C8 witness: the characterization evaluated at a passing environment and
at the default-branch environment. -/
theorem C8_witness :
    ValidateSummarize ⟨false, true, false, 3⟩ false = none ∧
    (ValidateSummarize ⟨true, true, false, 3⟩ false).isSome = true :=
  ⟨(C8_validateSummarize_correct ⟨false, true, false, 3⟩).2.mpr
      (by simp),
   (C8_validateSummarize_correct ⟨true, true, false, 3⟩).1.mpr
      (Or.inl rfl)⟩

/-! ## C7: `resume` on a branch with a missing trailer or missing metadata

Control flow translated from `resumeFromCurrentBranch`, `checkRemoteMetadata`
and `resumeSession` in `resume.go`.  The `paths.ParseCheckpointTrailer`
helper and the metadata stores live outside the source tree: the trailer
parse reuses the spec-modelled trailer codec, and each metadata branch tree
is an optional association list from checkpoint id to its record. -/

structure CheckpointMetadata where
  sessionID : List Char

/-- Modelled from the spec: `paths.ParseCheckpointTrailer` (not in the
source tree) — the value of the `Entire-Checkpoint` trailer, if present. -/
def ParseCheckpointTrailer (msg : List Char) : Option (List Char) :=
  ((parseTrailers msg).find? fun p =>
    decide (p.1 = "Entire-Checkpoint".data)).map Prod.snd

/-- Modelled from the spec: `strategy.ReadCheckpointMetadata` at the
sharded path of a checkpoint id — a lookup in the metadata tree. -/
def readCheckpointMetadata (tree : List (List Char × CheckpointMetadata))
    (cid : List Char) : Option CheckpointMetadata :=
  (tree.find? fun p => decide (p.1 = cid)).map Prod.snd

structure ResumeEnv where
  commitMessage : List Char
  localTree : Option (List (List Char × CheckpointMetadata))
  remoteTree : Option (List (List Char × CheckpointMetadata))
  sessionFileExists : Bool
  sessionLogAvailable : Bool
  logErrIsNoMetadata : Bool

/-- The observable outcome of a resume invocation: whether a non-nil error
was returned, whether an informational message was printed to stderr, and
whether a session log file was materialized. -/
structure ResumeEffect where
  isError : Bool
  printedInfo : Bool
  wroteSessionLog : Bool
deriving DecidableEq

/-- `resumeSession`: restore the vendor session log unless it already
exists; a missing log with `ErrNoMetadata` is informational. -/
def resumeSessionModel (env : ResumeEnv) : ResumeEffect :=
  if env.sessionFileExists then ⟨false, false, false⟩
  else if env.sessionLogAvailable then ⟨false, false, true⟩
  else if env.logErrIsNoMetadata then ⟨false, true, false⟩
  else ⟨true, false, false⟩

/-- `checkRemoteMetadata`: every branch prints guidance and returns nil
without touching the session directory. -/
def checkRemoteMetadata (env : ResumeEnv) (cid : List Char) : ResumeEffect :=
  match env.remoteTree with
  | none => ⟨false, true, false⟩
  | some remoteTree =>
    match readCheckpointMetadata remoteTree cid with
    | none => ⟨false, true, false⟩
    | some _ => ⟨false, true, false⟩

/-- `resumeFromCurrentBranch`: read the tip commit's checkpoint trailer,
look the checkpoint up locally, fall back to the remote tree, and only on
success hand over to `resumeSession`. -/
def resumeFromCurrentBranch (env : ResumeEnv) : ResumeEffect :=
  match ParseCheckpointTrailer env.commitMessage with
  | none => ⟨false, true, false⟩
  | some checkpointID =>
    match env.localTree with
    | none => checkRemoteMetadata env checkpointID
    | some metadataTree =>
      match readCheckpointMetadata metadataTree checkpointID with
      | none => checkRemoteMetadata env checkpointID
      | some _ => resumeSessionModel env

/-- Whether a (possibly missing) metadata tree holds the checkpoint. -/
def treeHasCheckpoint (tree : Option (List (List Char × CheckpointMetadata)))
    (cid : List Char) : Bool :=
  match tree with
  | none => false
  | some t => (readCheckpointMetadata t cid).isSome

/-- The degraded situations of the claim: no `Entire-Checkpoint` trailer on
the tip commit, or a checkpoint id with no metadata record available
locally or on the remote metadata branch. -/
def resumeDegraded (env : ResumeEnv) : Bool :=
  match ParseCheckpointTrailer env.commitMessage with
  | none => true
  | some cid =>
    !treeHasCheckpoint env.localTree cid &&
    !treeHasCheckpoint env.remoteTree cid

/-- C7: in every degraded situation, resume returns success (nil error)
after printing an informational message, and materializes no session log. -/
theorem C7_resume_degraded_informational :
    ∀ env : ResumeEnv, resumeDegraded env = true →
      resumeFromCurrentBranch env = ⟨false, true, false⟩ := by
  intro env hdeg
  unfold resumeDegraded at hdeg
  unfold resumeFromCurrentBranch checkRemoteMetadata
  cases hp : ParseCheckpointTrailer env.commitMessage with
  | none => rfl
  | some cid =>
    rw [hp] at hdeg
    simp only [Bool.and_eq_true, Bool.not_eq_true'] at hdeg
    obtain ⟨hlocal, hremote⟩ := hdeg
    cases hl : env.localTree with
    | none =>
      cases hr : env.remoteTree with
      | none => simp
      | some rt =>
        cases hrc : readCheckpointMetadata rt cid with
        | none => simp [hrc]
        | some md =>
          rw [hr] at hremote
          simp [treeHasCheckpoint, hrc] at hremote
    | some lt =>
      rw [hl] at hlocal
      cases hlc : readCheckpointMetadata lt cid with
      | none =>
        cases hr : env.remoteTree with
        | none => simp [hlc]
        | some rt =>
          cases hrc : readCheckpointMetadata rt cid with
          | none => simp [hlc, hrc]
          | some md =>
            rw [hr] at hremote
            simp [treeHasCheckpoint, hrc] at hremote
      | some md =>
        simp [treeHasCheckpoint, hlc] at hlocal

/-- C7 witness: resume on a tip commit without any trailer, with no
metadata branch locally or remotely, exits cleanly with an informational
message and no session log. -/
theorem C7_witness :
    resumeFromCurrentBranch
      ⟨"Initial commit".data, none, none, false, false, false⟩ =
      ⟨false, true, false⟩ :=
  C7_resume_degraded_informational
    ⟨"Initial commit".data, none, none, false, false, false⟩ (by decide)

/-! ## C3: session-id conflict on the shadow branch

The session-state and temporary-store components are not part of the
source tree (only their integration tests are), so the reservation step is
modelled from the specification (§4.3/§4.4): the `Entire-Session` trailer
of the shadow branch tip commit is authoritative, and the on-disk session
state files are not consulted. -/

inductive SessionStartError where
  | sessionIdConflict (existing incoming : List Char)
deriving DecidableEq

/-- Modelled from the spec: `paths`-style extraction of the
`Entire-Session` trailer of a commit message. -/
def ParseSessionTrailer (msg : List Char) : Option (List Char) :=
  ((parseTrailers msg).find? fun p =>
    decide (p.1 = "Entire-Session".data)).map Prod.snd

/-- The state of one base commit: the shadow branch tip commit message, if
the shadow branch exists, and the session ids of the on-disk session-state
files. -/
structure ShadowBaseState where
  shadowTipMessage : Option (List Char)
  sessionStateFiles : List (List Char)

/-- Modelled from the spec: `reserve(base_commit_id, session_id)` of the
temporary store — create the shadow branch if absent; if it exists, fail
with `SessionIdConflict` iff its tip commit's `Entire-Session` trailer
names a different session; a tip without the trailer is legacy and does
not conflict.  The on-disk session-state files are never consulted. -/
def reserveShadowBranch (st : ShadowBaseState) (sessionID : List Char) :
    Except SessionStartError Unit :=
  match st.shadowTipMessage with
  | none => .ok ()
  | some tipMsg =>
    match ParseSessionTrailer tipMsg with
    | none => .ok ()
    | some existing =>
      if existing = sessionID then .ok ()
      else .error (.sessionIdConflict existing sessionID)

/-- C3: reserving fails with `SessionIdConflict` exactly when the shadow
tip's `Entire-Session` trailer names a different session id; the same id
succeeds; a tip without the trailer (legacy) never conflicts; and the
outcome does not depend on the on-disk session-state files, so deleted
state files change nothing. -/
theorem C3_sessionIdConflict_authoritative :
    ∀ (st : ShadowBaseState) (sid : List Char),
      (∀ tipMsg other, st.shadowTipMessage = some tipMsg →
        ParseSessionTrailer tipMsg = some other → other ≠ sid →
        reserveShadowBranch st sid =
          .error (.sessionIdConflict other sid)) ∧
      (∀ tipMsg, st.shadowTipMessage = some tipMsg →
        ParseSessionTrailer tipMsg = some sid →
        reserveShadowBranch st sid = .ok ()) ∧
      (∀ tipMsg, st.shadowTipMessage = some tipMsg →
        ParseSessionTrailer tipMsg = none →
        reserveShadowBranch st sid = .ok ()) ∧
      (st.shadowTipMessage = none → reserveShadowBranch st sid = .ok ()) ∧
      (∀ files : List (List Char),
        reserveShadowBranch ⟨st.shadowTipMessage, files⟩ sid =
          reserveShadowBranch st sid) := by
  intro st sid
  refine ⟨?_, ?_, ?_, ?_, ?_⟩
  · intro tipMsg other htip htr hne
    unfold reserveShadowBranch
    rw [htip]
    simp only [htr]
    rw [if_neg hne]
  · intro tipMsg htip htr
    unfold reserveShadowBranch
    rw [htip]
    simp [htr]
  · intro tipMsg htip htr
    unfold reserveShadowBranch
    rw [htip]
    simp only [htr]
  · intro htip
    unfold reserveShadowBranch
    rw [htip]
  · intro files
    rfl

/-- C3 witness: a shadow tip stamped with session `2025-01-01-alpha`
conflicts with an incoming session `2025-01-01-beta` even with no session
state files on disk, resuming `2025-01-01-alpha` itself succeeds, and a
legacy tip without trailers never conflicts. -/
theorem C3_witness :
    reserveShadowBranch
      ⟨some "Orphaned checkpoint\n\nEntire-Session: 2025-01-01-alpha\nEntire-Strategy: manual-commit\n".data,
       []⟩ "2025-01-01-beta".data =
      .error (.sessionIdConflict "2025-01-01-alpha".data
        "2025-01-01-beta".data) ∧
    reserveShadowBranch
      ⟨some "Orphaned checkpoint\n\nEntire-Session: 2025-01-01-alpha\nEntire-Strategy: manual-commit\n".data,
       []⟩ "2025-01-01-alpha".data = .ok () ∧
    reserveShadowBranch
      ⟨some "Legacy checkpoint without session trailer".data, []⟩
      "2025-01-01-beta".data = .ok () :=
  ⟨(C3_sessionIdConflict_authoritative _ "2025-01-01-beta".data).1
      _ _ rfl (by decide) (by decide),
   (C3_sessionIdConflict_authoritative _ "2025-01-01-alpha".data).2.1
      _ rfl (by decide),
   (C3_sessionIdConflict_authoritative _ "2025-01-01-beta".data).2.2.1
      _ rfl (by decide)⟩

/-! ## C2: attribution record invariants

The attribution engine is not part of the source tree (only its
integration tests are), so its aggregation step is modelled from the
specification (§4.7): summed per-file counts, the deletion-only rule, and
`agent_percentage = round_half_even(100 * agent_add / total_committed, 1)`. -/

structure AttributionRecord where
  agentLines : Nat
  humanAdded : Nat
  humanModified : Nat
  humanRemoved : Nat
  totalCommitted : Nat
  agentPercentage : ℚ

/-- Round-half-even to an integer (banker's rounding). -/
def roundHalfEven (q : ℚ) : ℤ :=
  if q - ⌊q⌋ < 1/2 then ⌊q⌋
  else if 1/2 < q - ⌊q⌋ then ⌊q⌋ + 1
  else if Even ⌊q⌋ then ⌊q⌋ else ⌊q⌋ + 1

/-- Modelled from the spec: the aggregation step of the attribution
engine — file-summed counts with the deletion-only rule; the percentage is
rounded half-even to one decimal place. -/
def mkAttribution (agentAdd humanAdd humanMod humanRem : Nat) :
    AttributionRecord :=
  if agentAdd + humanAdd = 0 then
    ⟨agentAdd, humanAdd, humanMod, humanRem, 0, 0⟩
  else
    ⟨agentAdd, humanAdd, humanMod, humanRem, agentAdd + humanAdd,
      (roundHalfEven ((1000 * agentAdd : ℚ) / (agentAdd + humanAdd)) : ℚ) / 10⟩

theorem roundHalfEven_bounds (q : ℚ) (h0 : 0 ≤ q) (h1 : q ≤ 1000) :
    0 ≤ roundHalfEven q ∧ roundHalfEven q ≤ 1000 := by
  have hfl0 : (0 : ℤ) ≤ ⌊q⌋ := Int.floor_nonneg.mpr h0
  have hfl1 : ⌊q⌋ ≤ 1000 := by
    have h := Int.floor_le_floor h1
    rwa [show ⌊(1000 : ℚ)⌋ = 1000 by norm_num] at h
  have hkey : ¬(q - ⌊q⌋ < 1/2) → ⌊q⌋ + 1 ≤ 1000 := by
    intro hr
    rcases lt_or_eq_of_le hfl1 with h | h
    · omega
    · exfalso
      apply hr
      have hq : q - (⌊q⌋ : ℚ) ≤ 0 := by
        rw [h]
        push_cast
        linarith
      linarith
  unfold roundHalfEven
  split
  · exact ⟨hfl0, hfl1⟩
  · rename_i hr
    split
    · exact ⟨by omega, hkey hr⟩
    · split
      · exact ⟨hfl0, hfl1⟩
      · exact ⟨by omega, hkey hr⟩

/-- C2: for every attribution record produced by the engine,
`total_committed = max 0 (agent_lines + human_added)`; the percentage lies
in `[0, 100]` whenever `total_committed > 0`; and a deletion-only commit
(`agent_add + human_add = 0`) has `total_committed = 0` and percentage `0`
regardless of removals. -/
theorem C2_attribution_invariants :
    ∀ agentAdd humanAdd humanMod humanRem : Nat,
      (mkAttribution agentAdd humanAdd humanMod humanRem).totalCommitted =
        max 0 (agentAdd + humanAdd) ∧
      (0 < (mkAttribution agentAdd humanAdd humanMod humanRem).totalCommitted →
        0 ≤ (mkAttribution agentAdd humanAdd humanMod humanRem).agentPercentage ∧
        (mkAttribution agentAdd humanAdd humanMod humanRem).agentPercentage ≤ 100) ∧
      (agentAdd + humanAdd = 0 →
        (mkAttribution agentAdd humanAdd humanMod humanRem).totalCommitted = 0 ∧
        (mkAttribution agentAdd humanAdd humanMod humanRem).agentPercentage = 0) := by
  intro a h m r
  by_cases hz : a + h = 0
  · refine ⟨?_, ?_, ?_⟩
    · simp [mkAttribution, hz]
    · intro hpos
      simp [mkAttribution, hz] at hpos
    · intro _
      simp [mkAttribution, hz]
  · have hq0 : (0 : ℚ) ≤ (1000 * a : ℚ) / (a + h) := by
      apply div_nonneg
      · positivity
      · positivity
    have hden : (0 : ℚ) < (a + h : ℚ) := by
      have : 0 < a + h := Nat.pos_of_ne_zero hz
      exact_mod_cast this
    have hq1 : (1000 * a : ℚ) / (a + h) ≤ 1000 := by
      rw [div_le_iff hden]
      have : (a : ℚ) ≤ (a : ℚ) + (h : ℚ) := le_add_of_nonneg_right (by positivity)
      nlinarith [this]
    have hb := roundHalfEven_bounds _ hq0 hq1
    refine ⟨?_, ?_, ?_⟩
    · simp [mkAttribution, hz]
    · intro hpos
      constructor
      · show (0 : ℚ) ≤ (mkAttribution a h m r).agentPercentage
        simp only [mkAttribution, if_neg hz]
        have : (0 : ℚ) ≤ (roundHalfEven ((1000 * a : ℚ) / (a + h)) : ℚ) := by
          exact_mod_cast hb.1
        linarith
      · show (mkAttribution a h m r).agentPercentage ≤ 100
        simp only [mkAttribution, if_neg hz]
        have : (roundHalfEven ((1000 * a : ℚ) / (a + h)) : ℚ) ≤ 1000 := by
          exact_mod_cast hb.2
        linarith
    · intro hzz
      exact absurd hzz hz

/-- C2 witness: the invariants at the attribution values of the
interleaved-edit scenario (13 agent lines, 5 human lines) and of the
deletion-only scenario (no additions, 3 removals). -/
theorem C2_witness :
    (0 ≤ (mkAttribution 13 5 0 0).agentPercentage ∧
      (mkAttribution 13 5 0 0).agentPercentage ≤ 100) ∧
    ((mkAttribution 0 0 0 3).totalCommitted = 0 ∧
      (mkAttribution 0 0 0 3).agentPercentage = 0) :=
  ⟨(C2_attribution_invariants 13 5 0 0).2.1 (by decide),
   (C2_attribution_invariants 0 0 0 3).2.2 rfl⟩

end EntireCLI
